import Mathlib

/-!
Shallow embedding of `src/nimble/host/src/ble_monitor.c` (BLE monitor
transport of the NimBLE host): a 64-byte transmit ring buffer drained one
byte at a time by the UART transmit interrupt, a binary monitor-header
encoder, and the record-send entry points serialized by a mutex.

Bytes are `Nat` values; stores into the `uint8` ring buffer reduce mod 256.
Externally visible actions (uart kicks, byte stores, mutex operations) are
recorded in an event trace so ordering properties can be stated.
-/

namespace BleMonitor

/-- Externally visible actions of the monitor code: `kick` is a call to
`uart_start_tx`, `write b` stores byte `b` into the ring buffer, and the
lock events are `os_mutex_pend` / `os_mutex_release` on the session lock. -/
inductive Ev where
  | kick
  | write (b : Nat)
  | lockPend
  | lockRelease
deriving DecidableEq, Repr

/-- State of the static transmit ring buffer: `tx_ringbuf` (64 bytes),
`tx_ringbuf_head` and `tx_ringbuf_tail`. -/
structure RingBuf where
  buf : List Nat
  head : Nat
  tail : Nat
deriving DecidableEq, Repr

/-- The C statics start zero-initialized. -/
def RingBuf.init : RingBuf := ⟨List.replicate 64 0, 0, 0⟩

/-- Well-formedness carried by the C types: the array has 64 cells and the
`uint8` indices stay below 64. -/
def RingBuf.wf (s : RingBuf) : Prop :=
  s.buf.length = 64 ∧ s.head < 64 ∧ s.tail < 64

instance (s : RingBuf) : Decidable s.wf := by
  unfold RingBuf.wf; infer_instance

/-- C: `inc_and_wrap(int i, int max) { return (i + 1) & (max - 1); }` -/
def inc_and_wrap (i max : Nat) : Nat := (i + 1) &&& (max - 1)

/-- C: `monitor_uart_tx_char` — the UART pull callback.  Returns `-1` when
`head == tail`, otherwise the byte at `tail`, advancing `tail`. -/
def monitor_uart_tx_char (s : RingBuf) : Int × RingBuf :=
  if s.head = s.tail then
    (-1, s)
  else
    ((s.buf.getD s.tail 0 : Int),
     { s with tail := inc_and_wrap s.tail 64 })

/-- C: `monitor_uart_queue_char` — producer-side blocking push.  While the
buffer is full it calls `uart_start_tx` and reopens the critical section;
during that window the transmit interrupt runs `monitor_uart_tx_char` and
frees a slot.  `fuel` bounds the modelled wait iterations; `none` means the
wait did not finish within `fuel` steps. -/
def monitor_uart_queue_char : Nat → RingBuf → Nat → Option (RingBuf × List Ev)
  | 0, _, _ => none
  | fuel + 1, s, ch =>
    if inc_and_wrap s.head 64 = s.tail then
      match monitor_uart_queue_char fuel (monitor_uart_tx_char s).2 ch with
      | none => none
      | some (s2, evs) => some (s2, Ev.kick :: evs)
    else
      some ({ s with buf := s.buf.set s.head (ch % 256),
                     head := inc_and_wrap s.head 64 },
            [Ev.write (ch % 256)])

/-- C: `monitor_write` — queue each byte of `bytes` in order via
`monitor_uart_queue_char`, then call `uart_start_tx` once. -/
def monitor_write (fuel : Nat) : RingBuf → List Nat → Option (RingBuf × List Ev)
  | s, [] => some (s, [Ev.kick])
  | s, b :: rest =>
    match monitor_uart_queue_char fuel s b with
    | none => none
    | some (s2, evs) =>
      match monitor_write fuel s2 rest with
      | none => none
      | some (s3, evs2) => some (s3, evs ++ evs2)

/-- Bytes stored into the ring buffer by a trace, in order. -/
def writesOf : List Ev → List Nat
  | [] => []
  | Ev.write b :: rest => b :: writesOf rest
  | _ :: rest => writesOf rest

/-- Number of queued bytes in a ring-buffer state. -/
def RingBuf.count (s : RingBuf) : Nat := (s.head + 64 - s.tail) % 64

/-- Queued bytes from `tail` (oldest) to `head` (newest). -/
def RingBuf.contents (s : RingBuf) : List Nat :=
  (List.range s.count).map (fun k => s.buf.getD ((s.tail + k) % 64) 0)

/-- C: `#define UTC01_01_2016 1451606400` — UTC timestamp of Jan 1 2016. -/
def UTC01_01_2016 : Int := 1451606400

/-- Modelled from the spec: `BLE_MONITOR_EXTHDR_TS32` is declared in
`ble_monitor_priv.h`, which is not in the sources; the spec fixes only that
it is the extended-header tag meaning a 32-bit timestamp is present. -/
def BLE_MONITOR_EXTHDR_TS32 : Nat := 8

/-- Modelled from the spec: `struct ble_monitor_hdr` is declared in
`ble_monitor_priv.h`, which is not in the sources.  The spec's MonitorHeader
table gives the fields and widths: `data_len` 16 bits, `hdr_len` 8 bits,
`opcode` 16 bits, `flags` 16 bits, `type` (ext_type) 8 bits, `ts32` 32 bits,
all little-endian on the wire.  Fields hold their wire values as `Nat`. -/
structure ble_monitor_hdr where
  data_len : Nat
  hdr_len : Nat
  opcode : Nat
  flags : Nat
  type : Nat
  ts32 : Nat
deriving DecidableEq, Repr

/-- Environment-supplied time sources: `os_gettimeofday` (`none` models a
nonzero return code, otherwise `(tv_sec, tv_usec)`) and
`os_get_uptime_usec`. -/
structure TimeEnv where
  gettimeofday : Option (Int × Int)
  uptime_usec : Int

/-- C: `encode_monitor_hdr(hdr, ts, opcode, len)`.  `len` is the `uint16`
parameter value; 16-bit stores reduce mod 2^16 and the 32-bit timestamp
store reduces mod 2^32 (`Int` division by 100 truncates toward zero as in
C). -/
def encode_monitor_hdr (env : TimeEnv) (ts : Int) (opcode len : Nat) :
    ble_monitor_hdr :=
  let hdr_len : Nat := 1 + 4
  let ts2 : Int :=
    if ts < 0 then
      match env.gettimeofday with
      | none => env.uptime_usec
      | some (sec, usec) =>
        if sec < UTC01_01_2016 then env.uptime_usec
        else sec * 1000000 + usec
    else ts
  { data_len := (4 + hdr_len + len) % 65536
    hdr_len := hdr_len % 256
    opcode := opcode % 65536
    flags := 0
    type := BLE_MONITOR_EXTHDR_TS32 % 256
    ts32 := ((ts2 / 100) % 4294967296).toNat }

/-- Little-endian bytes of a 16-bit value. -/
def le16 (v : Nat) : List Nat := [v % 256, v / 256 % 256]

/-- Little-endian bytes of a 32-bit value. -/
def le32 (v : Nat) : List Nat :=
  [v % 256, v / 256 % 256, v / 65536 % 256, v / 16777216 % 256]

/-- Wire image of `struct ble_monitor_hdr`, fields in the spec's table
order, multi-byte fields little-endian. -/
def serialize_monitor_hdr (h : ble_monitor_hdr) : List Nat :=
  le16 h.data_len ++ [h.hdr_len % 256] ++ le16 h.opcode ++ le16 h.flags
    ++ [h.type % 256] ++ le32 h.ts32

/-- C: `ble_monitor_send(opcode, data, len)` — encode the header with no
timestamp override, then under the session mutex push the header bytes and
the payload bytes.  `data.length % 65536` models the `size_t` → `uint16`
conversion at the call to `encode_monitor_hdr`. -/
def ble_monitor_send (fuel : Nat) (env : TimeEnv) (s : RingBuf)
    (opcode : Nat) (data : List Nat) : Option (RingBuf × List Ev) :=
  let hdr := encode_monitor_hdr env (-1) opcode (data.length % 65536)
  match monitor_write fuel s (serialize_monitor_hdr hdr) with
  | none => none
  | some (s2, evs) =>
    match monitor_write fuel s2 data with
    | none => none
    | some (s3, evs2) =>
      some (s3, Ev.lockPend :: (evs ++ evs2) ++ [Ev.lockRelease])

/-- C: the `uint16_t length` accumulation loop of `ble_monitor_send_om`:
`length += om_tmp->om_len` over the mbuf chain (`om_len` of a fragment is
its byte count, a `uint16`). -/
def om_total_len (oms : List (List Nat)) : Nat :=
  oms.foldl (fun length om => (length + om.length % 65536) % 65536) 0

/-- The payload-push loop of `ble_monitor_send_om`: one `monitor_write` per
fragment, in chain order. -/
def write_oms (fuel : Nat) : RingBuf → List (List Nat) →
    Option (RingBuf × List Ev)
  | s, [] => some (s, [])
  | s, om :: rest =>
    match monitor_write fuel s om with
    | none => none
    | some (s2, evs) =>
      match write_oms fuel s2 rest with
      | none => none
      | some (s3, evs2) => some (s3, evs ++ evs2)

/-- C: `ble_monitor_send_om(opcode, om)` — sum the fragment lengths into a
`uint16`, encode the header, then under the session mutex push the header
and every fragment in order. -/
def ble_monitor_send_om (fuel : Nat) (env : TimeEnv) (s : RingBuf)
    (opcode : Nat) (oms : List (List Nat)) : Option (RingBuf × List Ev) :=
  let hdr := encode_monitor_hdr env (-1) opcode (om_total_len oms)
  match monitor_write fuel s (serialize_monitor_hdr hdr) with
  | none => none
  | some (s2, evs) =>
    match write_oms fuel s2 oms with
    | none => none
    | some (s3, evs2) =>
      some (s3, Ev.lockPend :: (evs ++ evs2) ++ [Ev.lockRelease])

/-- Modelled from the spec: `BLE_MONITOR_OPCODE_NEW_INDEX` is declared in
`ble_monitor_priv.h`, which is not in the sources; the spec fixes only that
one reserved opcode marks "new index" registration. -/
def BLE_MONITOR_OPCODE_NEW_INDEX : Nat := 0

/-- C: `strncpy(dst, src, n)` for a source C string given as its bytes
before the terminator (hence none of them is 0): copies at most `n` bytes
and pads with zero bytes up to `n` when the source is shorter. -/
def strncpyBytes (src : List Nat) (n : Nat) : List Nat :=
  src.take n ++ List.replicate (n - src.length) 0

/-- Modelled from the spec: `struct ble_monitor_new_index` is declared in
`ble_monitor_priv.h`, which is not in the sources.  The spec's IndexRecord
is `{ type: u8 = 0, bus: u8, address: 6 bytes, name: fixed-size
null-terminated string }`; the width `w` of the name field is not given by
the spec, so it is a parameter.  This is the packed wire image built by
`ble_monitor_new_index`: `pkt.type = 0`, `pkt.bus = bus`,
`memcpy(pkt.bdaddr, addr, 6)`, `strncpy(pkt.name, name, w - 1)` followed by
`pkt.name[w - 1] = 0`. -/
def ble_monitor_new_index_pkt (w : Nat) (bus : Nat) (addr name : List Nat) :
    List Nat :=
  [0, bus % 256] ++ addr.take 6 ++ (strncpyBytes name (w - 1) ++ [0])

/-- C: `ble_monitor_new_index(bus, addr, name)` — build the new-index
packet and send it with the reserved opcode. -/
def ble_monitor_new_index (w fuel : Nat) (env : TimeEnv) (s : RingBuf)
    (bus : Nat) (addr name : List Nat) : Option (RingBuf × List Ev) :=
  ble_monitor_send fuel env s BLE_MONITOR_OPCODE_NEW_INDEX
    (ble_monitor_new_index_pkt w bus addr name)

/-! ### Basic lemmas about the ring buffer -/

theorem inc_and_wrap_eq_mod (i : Nat) : inc_and_wrap i 64 = (i + 1) % 64 := by
  have h := Nat.and_pow_two_sub_one_eq_mod (i + 1) 6
  norm_num at h
  simpa [inc_and_wrap] using h

theorem RingBuf.contents_length (s : RingBuf) : s.contents.length = s.count := by
  simp [RingBuf.contents]

theorem RingBuf.count_lt (s : RingBuf) : s.count < 64 :=
  Nat.mod_lt _ (by omega)

theorem RingBuf.contents_nil_of_empty (s : RingBuf) (h : s.head = s.tail) :
    s.contents = [] := by
  have hc : s.count = 0 := by unfold RingBuf.count; omega
  simp [RingBuf.contents, hc]

theorem monitor_uart_tx_char_wf (s : RingBuf) (h : s.wf) :
    ((monitor_uart_tx_char s).2).wf := by
  obtain ⟨h1, h2, h3⟩ := h
  unfold monitor_uart_tx_char
  split
  · exact ⟨h1, h2, h3⟩
  · refine ⟨h1, h2, ?_⟩
    simp only [inc_and_wrap_eq_mod]
    omega

/-- Pulling from a nonempty buffer returns the head of `contents` and leaves
the tail of `contents`. -/
theorem monitor_uart_tx_char_spec (s : RingBuf) (hwf : s.wf)
    (hne : s.head ≠ s.tail) :
    (monitor_uart_tx_char s).1 = (s.buf.getD s.tail 0 : Int) ∧
      s.contents = s.buf.getD s.tail 0 :: ((monitor_uart_tx_char s).2).contents := by
  obtain ⟨h1, h2, h3⟩ := hwf
  have hres : monitor_uart_tx_char s =
      ((s.buf.getD s.tail 0 : Int), { s with tail := (s.tail + 1) % 64 }) := by
    unfold monitor_uart_tx_char
    rw [if_neg hne, inc_and_wrap_eq_mod]
  refine ⟨by rw [hres], ?_⟩
  rw [hres]
  unfold RingBuf.contents RingBuf.count
  dsimp only
  have hc2 : (s.head + 64 - (s.tail + 1) % 64) % 64
      = (s.head + 64 - s.tail) % 64 - 1 := by omega
  rw [hc2]
  obtain ⟨d, hd⟩ : ∃ d, (s.head + 64 - s.tail) % 64 = d + 1 :=
    ⟨(s.head + 64 - s.tail) % 64 - 1, by omega⟩
  rw [hd, Nat.add_sub_cancel, List.range_succ_eq_map]
  simp only [List.map_cons, List.map_map, List.cons.injEq]
  constructor
  · rw [Nat.add_zero, Nat.mod_eq_of_lt h3]
  · apply List.map_congr_left
    intro k _
    simp only [Function.comp_apply]
    rw [Nat.mod_add_mod]
    congr 1
    omega

theorem monitor_uart_queue_char_wf (fuel : Nat) :
    ∀ (s : RingBuf) (ch s2 : _) (evs : List Ev), s.wf →
      monitor_uart_queue_char fuel s ch = some (s2, evs) → s2.wf := by
  induction fuel with
  | zero => intro s ch s2 evs _ h; simp [monitor_uart_queue_char] at h
  | succ n ih =>
    intro s ch s2 evs hwf h
    unfold monitor_uart_queue_char at h
    split at h
    · rcases hm : monitor_uart_queue_char n (monitor_uart_tx_char s).2 ch with
        _ | ⟨s3, evs3⟩
      · rw [hm] at h; simp at h
      · rw [hm] at h
        simp only [Option.some.injEq, Prod.mk.injEq] at h
        exact h.1 ▸ ih _ ch s3 evs3 (monitor_uart_tx_char_wf s hwf) hm
    · simp only [Option.some.injEq, Prod.mk.injEq] at h
      obtain ⟨h1, h2, h3⟩ := hwf
      refine h.1 ▸ ⟨by simpa using h1, ?_, h3⟩
      simp only [inc_and_wrap_eq_mod]
      omega

/-- The full test of `monitor_uart_queue_char` in counting terms: given
well-formed indices, `(head + 1) & 63 == tail` holds exactly when 63 bytes
are queued. -/
theorem full_iff_count (s : RingBuf) (hwf : s.wf) :
    inc_and_wrap s.head 64 = s.tail ↔ s.count = 63 := by
  obtain ⟨_, h2, h3⟩ := hwf
  rw [inc_and_wrap_eq_mod]
  unfold RingBuf.count
  omega

/-- The empty test of `monitor_uart_tx_char` in counting terms. -/
theorem empty_iff_count (s : RingBuf) (hwf : s.wf) :
    s.head = s.tail ↔ s.count = 0 := by
  obtain ⟨_, h2, h3⟩ := hwf
  unfold RingBuf.count
  omega

/-- A push on a non-full buffer takes one step: it stores `ch % 256` at
`head`, advances `head`, and emits no kick. -/
theorem monitor_uart_queue_char_not_full (fuel : Nat) (s : RingBuf) (ch : Nat)
    (hnf : inc_and_wrap s.head 64 ≠ s.tail) :
    monitor_uart_queue_char (fuel + 1) s ch =
      some ({ s with buf := s.buf.set s.head (ch % 256),
                     head := inc_and_wrap s.head 64 },
            [Ev.write (ch % 256)]) := by
  unfold monitor_uart_queue_char
  rw [if_neg hnf]

/-- A push on a non-full well-formed buffer appends `ch % 256` to the queued
bytes. -/
theorem monitor_uart_queue_char_contents (fuel : Nat) (s : RingBuf) (ch : Nat)
    (hwf : s.wf) (hnf : inc_and_wrap s.head 64 ≠ s.tail) :
    ∃ s2, monitor_uart_queue_char (fuel + 1) s ch
        = some (s2, [Ev.write (ch % 256)])
      ∧ s2.wf ∧ s2.contents = s.contents ++ [ch % 256] := by
  obtain ⟨h1, h2, h3⟩ := hwf
  refine ⟨_, monitor_uart_queue_char_not_full fuel s ch hnf, ?_, ?_⟩
  · refine ⟨by simpa using h1, ?_, h3⟩
    dsimp only
    rw [inc_and_wrap_eq_mod]
    omega
  · rw [inc_and_wrap_eq_mod] at hnf
    unfold RingBuf.contents RingBuf.count
    dsimp only
    rw [inc_and_wrap_eq_mod]
    have hcnt : ((s.head + 1) % 64 + 64 - s.tail) % 64
        = (s.head + 64 - s.tail) % 64 + 1 := by omega
    rw [hcnt, List.range_succ, List.map_append, List.map_cons, List.map_nil]
    have hhead : (s.tail + (s.head + 64 - s.tail) % 64) % 64 = s.head := by
      omega
    congr 1
    · apply List.map_congr_left
      intro k hk
      rw [List.mem_range] at hk
      have hne : s.head ≠ (s.tail + k) % 64 := by omega
      rw [List.getD_eq_getElem?_getD, List.getD_eq_getElem?_getD,
        List.getElem?_set_ne hne]
    · rw [hhead, List.getD_eq_getElem?_getD,
        List.getElem?_set_eq_of_lt _ (show s.head < s.buf.length by omega)]
      rfl

/-- With fuel at least 2, a push on a well-formed buffer always completes:
a full buffer is drained by one byte during the reopened critical section,
after which it is no longer full. -/
theorem monitor_uart_queue_char_total (fuel : Nat) (s : RingBuf) (ch : Nat)
    (hwf : s.wf) (hfuel : 2 ≤ fuel) :
    ∃ s2 evs, monitor_uart_queue_char fuel s ch = some (s2, evs) ∧ s2.wf := by
  obtain ⟨f, rfl⟩ : ∃ f, fuel = f + 2 := ⟨fuel - 2, by omega⟩
  by_cases hfull : inc_and_wrap s.head 64 = s.tail
  · have hnemp : s.head ≠ s.tail := by
      rw [inc_and_wrap_eq_mod] at hfull
      obtain ⟨_, h2, h3⟩ := hwf
      omega
    have hwf2 := monitor_uart_tx_char_wf s hwf
    set s1 := (monitor_uart_tx_char s).2 with hs1
    have hnf1 : inc_and_wrap s1.head 64 ≠ s1.tail := by
      obtain ⟨_, h2, h3⟩ := hwf
      have hfull2 := hfull
      have hs1v : s1 = { s with tail := inc_and_wrap s.tail 64 } := by
        rw [hs1]; unfold monitor_uart_tx_char; rw [if_neg hnemp]
      rw [hs1v]
      dsimp only
      simp only [inc_and_wrap_eq_mod] at hfull2 ⊢
      omega
    obtain ⟨s2, h, hwf3, _⟩ :=
      monitor_uart_queue_char_contents f s1 ch hwf2 hnf1
    refine ⟨s2, Ev.kick :: [Ev.write (ch % 256)], ?_, hwf3⟩
    unfold monitor_uart_queue_char
    rw [if_pos hfull, ← hs1, h]
  · obtain ⟨s2, h, hwf2, _⟩ :=
      monitor_uart_queue_char_contents (f + 1) s ch hwf hfull
    exact ⟨s2, [Ev.write (ch % 256)], h, hwf2⟩

/-- Every event a push emits is a kick or a byte store, and it stores
exactly the byte `ch % 256`; a kick appears exactly when the buffer was
full on entry. -/
theorem monitor_uart_queue_char_events (fuel : Nat) :
    ∀ (s : RingBuf) (ch : Nat) s2 (evs : List Ev),
      monitor_uart_queue_char fuel s ch = some (s2, evs) →
      writesOf evs = [ch % 256]
        ∧ (∀ e ∈ evs, e = Ev.kick ∨ ∃ b, e = Ev.write b)
        ∧ (Ev.kick ∈ evs ↔ inc_and_wrap s.head 64 = s.tail) := by
  induction fuel with
  | zero => intro s ch s2 evs h; simp [monitor_uart_queue_char] at h
  | succ n ih =>
    intro s ch s2 evs h
    unfold monitor_uart_queue_char at h
    split at h
    · rcases hm : monitor_uart_queue_char n (monitor_uart_tx_char s).2 ch with
        _ | ⟨s3, evs3⟩
      · rw [hm] at h; simp at h
      · rw [hm] at h
        simp only [Option.some.injEq, Prod.mk.injEq] at h
        obtain ⟨he1, he2, _⟩ := ih _ ch s3 evs3 hm
        obtain ⟨rfl, rfl⟩ := h
        refine ⟨by simpa [writesOf] using he1, ?_, ?_⟩
        · intro e he
          rcases List.mem_cons.mp he with he | he
          · exact Or.inl he
          · exact he2 e he
        · simp only [List.mem_cons, true_or, true_iff]
          assumption
    · simp only [Option.some.injEq, Prod.mk.injEq] at h
      obtain ⟨-, rfl⟩ := h
      refine ⟨rfl, ?_, ?_⟩
      · intro e he
        simp only [List.mem_cons, List.not_mem_nil, or_false] at he
        exact Or.inr ⟨ch % 256, he⟩
      · simp only [List.mem_cons, List.not_mem_nil, or_false]
        constructor
        · intro hk; cases hk
        · intro hk; exact absurd hk (by assumption)

theorem writesOf_append (l1 l2 : List Ev) :
    writesOf (l1 ++ l2) = writesOf l1 ++ writesOf l2 := by
  induction l1 with
  | nil => rfl
  | cons e rest ih => cases e <;> simp [writesOf, ih]

/-- The bytes `monitor_write` stores are exactly its input reduced mod 256,
its events are only stores and kicks, and its trace ends with the single
closing `uart_start_tx` kick. -/
theorem monitor_write_events (fuel : Nat) :
    ∀ (bytes : List Nat) (s : RingBuf) s2 (evs : List Ev),
      monitor_write fuel s bytes = some (s2, evs) →
      writesOf evs = bytes.map (· % 256)
        ∧ (∀ e ∈ evs, e = Ev.kick ∨ ∃ b, e = Ev.write b)
        ∧ evs.getLast? = some Ev.kick := by
  intro bytes
  induction bytes with
  | nil =>
    intro s s2 evs h
    simp only [monitor_write, Option.some.injEq, Prod.mk.injEq] at h
    obtain ⟨-, rfl⟩ := h
    refine ⟨rfl, ?_, rfl⟩
    intro e he
    simp only [List.mem_cons, List.not_mem_nil, or_false] at he
    exact Or.inl he
  | cons b rest ih =>
    intro s s2 evs h
    unfold monitor_write at h
    rcases hq : monitor_uart_queue_char fuel s b with _ | ⟨s3, evs3⟩
    · rw [hq] at h; simp at h
    · rw [hq] at h
      dsimp only at h
      rcases hw : monitor_write fuel s3 rest with _ | ⟨s4, evs4⟩
      · rw [hw] at h; simp at h
      · rw [hw] at h
        simp only [Option.some.injEq, Prod.mk.injEq] at h
        obtain ⟨rfl, rfl⟩ := h
        obtain ⟨hq1, hq2, -⟩ := monitor_uart_queue_char_events fuel s b s3 evs3 hq
        obtain ⟨hw1, hw2, hw3⟩ := ih s3 s4 evs4 hw
        refine ⟨?_, ?_, ?_⟩
        · rw [writesOf_append, hq1, hw1, List.map_cons]
          rfl
        · intro e he
          rcases List.mem_append.mp he with he | he
          · exact hq2 e he
          · exact hw2 e he
        · have hne : evs4 ≠ [] := by
            intro hnil; rw [hnil] at hw3; simp at hw3
          rw [List.getLast?_append, hw3]
          rfl

/-- With fuel at least 2, `monitor_write` completes on any well-formed
buffer and preserves well-formedness. -/
theorem monitor_write_total (fuel : Nat) (hfuel : 2 ≤ fuel) :
    ∀ (bytes : List Nat) (s : RingBuf), s.wf →
      ∃ s2 evs, monitor_write fuel s bytes = some (s2, evs) ∧ s2.wf := by
  intro bytes
  induction bytes with
  | nil => intro s hwf; exact ⟨s, [Ev.kick], rfl, hwf⟩
  | cons b rest ih =>
    intro s hwf
    obtain ⟨s3, evs3, hq, hwf3⟩ :=
      monitor_uart_queue_char_total fuel s b hwf hfuel
    obtain ⟨s2, evs4, hw, hwf2⟩ := ih s3 hwf3
    refine ⟨s2, evs3 ++ evs4, ?_, hwf2⟩
    unfold monitor_write
    rw [hq]
    dsimp only
    rw [hw]

/-- Repeated results of the UART pull callback: `n` consecutive calls. -/
def tx_results : Nat → RingBuf → List Int
  | 0, _ => []
  | n + 1, s =>
    (monitor_uart_tx_char s).1 :: tx_results n (monitor_uart_tx_char s).2

/-- Draining a well-formed buffer returns exactly the queued bytes in FIFO
order, then the `-1` sentinel. -/
theorem tx_results_drain :
    ∀ (cs : List Nat) (s : RingBuf), s.wf → s.contents = cs →
      tx_results (cs.length + 1) s = cs.map Int.ofNat ++ [-1] := by
  intro cs
  induction cs with
  | nil =>
    intro s hwf hc
    have hemp : s.head = s.tail := by
      have := (empty_iff_count s hwf).mpr
      have hcnt : s.count = 0 := by
        rw [← RingBuf.contents_length, hc]; rfl
      exact this hcnt
    simp only [List.length_nil, List.map_nil, List.nil_append]
    unfold tx_results tx_results monitor_uart_tx_char
    rw [if_pos hemp]
  | cons c cs2 ih =>
    intro s hwf hc
    have hne : s.head ≠ s.tail := by
      intro hemp
      rw [RingBuf.contents_nil_of_empty s hemp] at hc
      cases hc
    obtain ⟨hval, hdec⟩ := monitor_uart_tx_char_spec s hwf hne
    rw [hc] at hdec
    have hc2 : ((monitor_uart_tx_char s).2).contents = cs2 := by
      injection hdec with h1 h2; exact h2.symm
    have hcv : (s.buf.getD s.tail 0 : Nat) = c := by
      injection hdec with h1 _; exact h1.symm
    show (monitor_uart_tx_char s).1
        :: tx_results (cs2.length + 1) (monitor_uart_tx_char s).2 = _
    rw [hval, hcv, ih (monitor_uart_tx_char s).2
      (monitor_uart_tx_char_wf s hwf) hc2]
    rfl

/-- Producer pushes of a byte list, one `monitor_uart_queue_char` per byte
(as the claims' `push_blocking` sequences do), keeping only the state. -/
def pushList (fuel : Nat) : RingBuf → List Nat → Option RingBuf
  | s, [] => some s
  | s, b :: rest =>
    match monitor_uart_queue_char fuel s b with
    | none => none
    | some (s2, _) => pushList fuel s2 rest

/-- Pushing a list that keeps the byte count at or below 63 succeeds with
no waiting (fuel 1) and appends the bytes to the queued contents. -/
theorem pushList_contents :
    ∀ (xs : List Nat) (s : RingBuf), s.wf →
      s.contents.length + xs.length ≤ 63 →
      ∃ s2, pushList 1 s xs = some s2 ∧ s2.wf
        ∧ s2.contents = s.contents ++ xs.map (· % 256) := by
  intro xs
  induction xs with
  | nil => intro s hwf _; exact ⟨s, rfl, hwf, by simp⟩
  | cons b rest ih =>
    intro s hwf hlen
    have hnf : inc_and_wrap s.head 64 ≠ s.tail := by
      intro hfull
      have := (full_iff_count s hwf).mp hfull
      rw [← RingBuf.contents_length] at this
      simp only [List.length_cons] at hlen
      omega
    obtain ⟨s3, hq, hwf3, hc3⟩ :=
      monitor_uart_queue_char_contents 0 s b hwf hnf
    simp only [Nat.zero_add] at hq
    obtain ⟨s2, hp, hwf2, hc2⟩ := ih s3 hwf3 (by
      rw [hc3]
      simp only [List.length_append, List.length_cons, List.length_nil]
        at hlen ⊢
      omega)
    refine ⟨s2, ?_, hwf2, ?_⟩
    · unfold pushList
      rw [hq]
      dsimp only
      rw [hp]
    · rw [hc2, hc3, List.map_cons, List.append_assoc]
      rfl

/-- The fragment loop stores every fragment's bytes in chain order, emits
only stores and kicks, and preserves well-formedness with fuel 2 or more. -/
theorem write_oms_events (fuel : Nat) :
    ∀ (oms : List (List Nat)) (s : RingBuf) s2 (evs : List Ev),
      write_oms fuel s oms = some (s2, evs) →
      writesOf evs = (oms.flatten).map (· % 256)
        ∧ (∀ e ∈ evs, e = Ev.kick ∨ ∃ b, e = Ev.write b) := by
  intro oms
  induction oms with
  | nil =>
    intro s s2 evs h
    simp only [write_oms, Option.some.injEq, Prod.mk.injEq] at h
    obtain ⟨-, rfl⟩ := h
    exact ⟨rfl, by intro e he; cases he⟩
  | cons om rest ih =>
    intro s s2 evs h
    unfold write_oms at h
    rcases hw : monitor_write fuel s om with _ | ⟨s3, evs3⟩
    · rw [hw] at h; simp at h
    · rw [hw] at h
      dsimp only at h
      rcases hr : write_oms fuel s3 rest with _ | ⟨s4, evs4⟩
      · rw [hr] at h; simp at h
      · rw [hr] at h
        simp only [Option.some.injEq, Prod.mk.injEq] at h
        obtain ⟨rfl, rfl⟩ := h
        obtain ⟨hw1, hw2, -⟩ := monitor_write_events fuel om s s3 evs3 hw
        obtain ⟨hr1, hr2⟩ := ih s3 s4 evs4 hr
        refine ⟨?_, ?_⟩
        · rw [writesOf_append, hw1, hr1, List.flatten_cons, List.map_append]
        · intro e he
          rcases List.mem_append.mp he with he | he
          · exact hw2 e he
          · exact hr2 e he

/-- With fuel at least 2, the fragment loop completes on any well-formed
buffer. -/
theorem write_oms_total (fuel : Nat) (hfuel : 2 ≤ fuel) :
    ∀ (oms : List (List Nat)) (s : RingBuf), s.wf →
      ∃ s2 evs, write_oms fuel s oms = some (s2, evs) ∧ s2.wf := by
  intro oms
  induction oms with
  | nil => intro s hwf; exact ⟨s, [], rfl, hwf⟩
  | cons om rest ih =>
    intro s hwf
    obtain ⟨s3, evs3, hw, hwf3⟩ := monitor_write_total fuel hfuel om s hwf
    obtain ⟨s2, evs4, hr, hwf2⟩ := ih s3 hwf3
    refine ⟨s2, evs3 ++ evs4, ?_, hwf2⟩
    unfold write_oms
    rw [hw]
    dsimp only
    rw [hr]

/-- The `uint16` accumulation of fragment lengths equals the true total
reduced mod 2^16. -/
theorem om_total_len_eq (oms : List (List Nat)) :
    om_total_len oms = (oms.map List.length).sum % 65536 := by
  suffices h : ∀ (l : List (List Nat)) (a : Nat),
      l.foldl (fun length om => (length + om.length % 65536) % 65536) (a % 65536)
        = (a + (l.map List.length).sum) % 65536 by
    have h0 := h oms 0
    simpa [om_total_len] using h0
  intro l
  induction l with
  | nil => intro a; simp
  | cons om rest ih =>
    intro a
    simp only [List.foldl_cons, List.map_cons, List.sum_cons]
    have hstep : (a % 65536 + om.length % 65536) % 65536
        = (a + om.length) % 65536 := by
      conv_rhs => rw [Nat.add_mod]
    rw [hstep, ih (a + om.length)]
    congr 1
    omega

/-- Every byte of a serialized header is below 256. -/
theorem serialize_monitor_hdr_lt (h : ble_monitor_hdr) :
    ∀ b ∈ serialize_monitor_hdr h, b < 256 := by
  intro b hb
  simp only [serialize_monitor_hdr, le16, le32, List.append_assoc,
    List.cons_append, List.nil_append, List.mem_cons, List.not_mem_nil,
    or_false, List.mem_append] at hb
  rcases hb with rfl | rfl | rfl | rfl | rfl | rfl | rfl | rfl | rfl | rfl |
    rfl | rfl <;> exact Nat.mod_lt _ (by omega)

/-- Mapping the `uint8` store reduction over bytes already below 256 is the
identity. -/
theorem map_mod_256_eq (l : List Nat) (h : ∀ b ∈ l, b < 256) :
    l.map (· % 256) = l := by
  rw [List.map_congr_left (fun b hb => Nat.mod_eq_of_lt (h b hb))]
  exact List.map_id l

/-- The serialized header always has 12 bytes. -/
theorem serialize_monitor_hdr_length (h : ble_monitor_hdr) :
    (serialize_monitor_hdr h).length = 12 := by
  simp [serialize_monitor_hdr, le16, le32]

theorem writesOf_lockPend_cons (l : List Ev) :
    writesOf (Ev.lockPend :: l) = writesOf l := rfl

theorem writesOf_lockRelease (l : List Ev) :
    writesOf (l ++ [Ev.lockRelease]) = writesOf l := by
  rw [writesOf_append]
  simp [writesOf]

/-- Complete run of `ble_monitor_send` on a well-formed buffer with enough
fuel: one lock bracket around the pushed header bytes and payload bytes. -/
theorem ble_monitor_send_run (fuel : Nat) (env : TimeEnv) (s : RingBuf)
    (opcode : Nat) (data : List Nat) (hfuel : 2 ≤ fuel) (hwf : s.wf) :
    ∃ s2 mid,
      ble_monitor_send fuel env s opcode data
          = some (s2, Ev.lockPend :: mid ++ [Ev.lockRelease])
        ∧ s2.wf
        ∧ writesOf mid
            = serialize_monitor_hdr
                (encode_monitor_hdr env (-1) opcode (data.length % 65536))
              ++ data.map (· % 256)
        ∧ (∀ e ∈ mid, e = Ev.kick ∨ ∃ b, e = Ev.write b) := by
  obtain ⟨s3, evs1, hw1, hwf3⟩ := monitor_write_total fuel hfuel
    (serialize_monitor_hdr
      (encode_monitor_hdr env (-1) opcode (data.length % 65536))) s hwf
  obtain ⟨s2, evs2, hw2, hwf2⟩ := monitor_write_total fuel hfuel data s3 hwf3
  obtain ⟨he1, he1k, -⟩ := monitor_write_events fuel _ s s3 evs1 hw1
  obtain ⟨he2, he2k, -⟩ := monitor_write_events fuel _ s3 s2 evs2 hw2
  refine ⟨s2, evs1 ++ evs2, ?_, hwf2, ?_, ?_⟩
  · unfold ble_monitor_send
    dsimp only
    rw [hw1]
    dsimp only
    rw [hw2]
  · rw [writesOf_append, he1, he2,
      map_mod_256_eq _ (serialize_monitor_hdr_lt _)]
  · intro e he
    rcases List.mem_append.mp he with he | he
    · exact he1k e he
    · exact he2k e he

/-- Complete run of `ble_monitor_send_om` on a well-formed buffer with
enough fuel: one lock bracket around the pushed header bytes and the
fragments' bytes in chain order. -/
theorem ble_monitor_send_om_run (fuel : Nat) (env : TimeEnv) (s : RingBuf)
    (opcode : Nat) (oms : List (List Nat)) (hfuel : 2 ≤ fuel) (hwf : s.wf) :
    ∃ s2 mid,
      ble_monitor_send_om fuel env s opcode oms
          = some (s2, Ev.lockPend :: mid ++ [Ev.lockRelease])
        ∧ s2.wf
        ∧ writesOf mid
            = serialize_monitor_hdr
                (encode_monitor_hdr env (-1) opcode (om_total_len oms))
              ++ (oms.flatten).map (· % 256)
        ∧ (∀ e ∈ mid, e = Ev.kick ∨ ∃ b, e = Ev.write b) := by
  obtain ⟨s3, evs1, hw1, hwf3⟩ := monitor_write_total fuel hfuel
    (serialize_monitor_hdr
      (encode_monitor_hdr env (-1) opcode (om_total_len oms))) s hwf
  obtain ⟨s2, evs2, hw2, hwf2⟩ := write_oms_total fuel hfuel oms s3 hwf3
  obtain ⟨he1, he1k, -⟩ := monitor_write_events fuel _ s s3 evs1 hw1
  obtain ⟨he2, he2k⟩ := write_oms_events fuel oms s3 s2 evs2 hw2
  refine ⟨s2, evs1 ++ evs2, ?_, hwf2, ?_, ?_⟩
  · unfold ble_monitor_send_om
    dsimp only
    rw [hw1]
    dsimp only
    rw [hw2]
  · rw [writesOf_append, he1, he2,
      map_mod_256_eq _ (serialize_monitor_hdr_lt _)]
  · intro e he
    rcases List.mem_append.mp he with he | he
    · exact he1k e he
    · exact he2k e he

/-! ### Claim theorems -/

/-- Claim C1: for every opcode and payload length fitting the 16-bit
budget, `encode_monitor_hdr` produces `hdr_len = 5` (one type byte plus a
4-byte timestamp) and `data_len = 4 + 5 + L`, with `data_len`, `opcode` and
`ts32` serialized little-endian and `flags = 0`. -/
theorem encode_monitor_hdr_header_fields (env : TimeEnv) (ts : Int)
    (opcode L : Nat) (hop : opcode < 65536) (hL : 4 + 5 + L < 65536) :
    (encode_monitor_hdr env ts opcode L).hdr_len = 5
    ∧ (encode_monitor_hdr env ts opcode L).data_len = 4 + 5 + L
    ∧ (encode_monitor_hdr env ts opcode L).flags = 0
    ∧ serialize_monitor_hdr (encode_monitor_hdr env ts opcode L)
        = [(4 + 5 + L) % 256, (4 + 5 + L) / 256 % 256]
          ++ [5]
          ++ [opcode % 256, opcode / 256 % 256]
          ++ [0, 0]
          ++ [(encode_monitor_hdr env ts opcode L).type]
          ++ le32 (encode_monitor_hdr env ts opcode L).ts32 := by
  have h1 : (encode_monitor_hdr env ts opcode L).hdr_len = 5 := by
    norm_num [encode_monitor_hdr]
  have h2 : (encode_monitor_hdr env ts opcode L).data_len = 4 + 5 + L := by
    unfold encode_monitor_hdr
    dsimp only
    omega
  have h3 : (encode_monitor_hdr env ts opcode L).flags = 0 := by
    norm_num [encode_monitor_hdr]
  have hop2 : (encode_monitor_hdr env ts opcode L).opcode = opcode := by
    unfold encode_monitor_hdr
    dsimp only
    omega
  have htype : (encode_monitor_hdr env ts opcode L).type = 8 := by
    norm_num [encode_monitor_hdr, BLE_MONITOR_EXTHDR_TS32]
  refine ⟨h1, h2, h3, ?_⟩
  unfold serialize_monitor_hdr le16
  rw [h1, h2, h3, hop2, htype]

/-- Witness for C1 at opcode 2 and payload length 10. -/
theorem encode_monitor_hdr_header_fields_witness :
    (encode_monitor_hdr ⟨none, 0⟩ (-1) 2 10).data_len = 4 + 5 + 10 :=
  (encode_monitor_hdr_header_fields ⟨none, 0⟩ (-1) 2 10 (by norm_num)
    (by norm_num)).2.1

/-- Claim C2: pushing at most 63 bytes through `monitor_uart_queue_char`
into an initially empty ring buffer with no intervening pulls, repeated
`monitor_uart_tx_char` calls return exactly those bytes in push order,
followed by the `-1` no-more-data sentinel. -/
theorem tx_ringbuf_fifo (xs : List Nat) (s : RingBuf) (hwf : s.wf)
    (hemp : s.head = s.tail) (hlen : xs.length ≤ 63)
    (hbytes : ∀ b ∈ xs, b < 256) :
    (pushList 1 s xs).map (fun s2 => tx_results (xs.length + 1) s2)
      = some (xs.map Int.ofNat ++ [-1]) := by
  have hc0 : s.contents = [] := RingBuf.contents_nil_of_empty s hemp
  obtain ⟨s2, hp, hwf2, hc2⟩ := pushList_contents xs s hwf
    (by rw [hc0]; simpa using hlen)
  rw [hc0, map_mod_256_eq xs hbytes, List.nil_append] at hc2
  rw [hp, Option.map_some', tx_results_drain xs s2 hwf2 hc2]

/-- Witness for C2 with three bytes pushed from the initial state. -/
theorem tx_ringbuf_fifo_witness :
    (pushList 1 RingBuf.init [7, 200, 13]).map (fun s2 => tx_results 4 s2)
      = some ([7, 200, 13].map Int.ofNat ++ [-1]) := by
  have h := tx_ringbuf_fifo [7, 200, 13] RingBuf.init (by decide) rfl
    (by decide) (by decide)
  simpa using h

/-- States of the static ring buffer reachable by any sequence of completed
producer pushes and consumer pulls from the zero-initialized state. -/
inductive Reachable : RingBuf → Prop where
  | init : Reachable RingBuf.init
  | push : ∀ (fuel ch : Nat) (s s2 : RingBuf) (evs : List Ev),
      Reachable s → monitor_uart_queue_char fuel s ch = some (s2, evs) →
      Reachable s2
  | pull : ∀ s : RingBuf, Reachable s → Reachable (monitor_uart_tx_char s).2

/-- Claim C3: every reachable ring-buffer state is well-formed (head and
tail in `[0, 64)`); the code's emptiness test `head == tail` holds iff no
bytes are queued, its fullness test `(head + 1) & 63 == tail` is
`(head + 1) mod 64 == tail` and holds iff exactly 63 bytes are queued; at
most 63 bytes are ever queued, the buffer is never full with fewer than 63
bytes queued, and never empty while `head != tail`. -/
theorem tx_ringbuf_invariants (s : RingBuf) (hr : Reachable s) :
    s.wf
    ∧ (s.head = s.tail ↔ s.contents = [])
    ∧ (inc_and_wrap s.head 64 = s.tail ↔ (s.head + 1) % 64 = s.tail)
    ∧ ((s.head + 1) % 64 = s.tail ↔ s.count = 63)
    ∧ s.count ≤ 63
    ∧ (s.count < 63 → inc_and_wrap s.head 64 ≠ s.tail)
    ∧ (s.head ≠ s.tail → s.count ≠ 0) := by
  have hwf : s.wf := by
    induction hr with
    | init => decide
    | push fuel ch s1 s2 evs hr1 hq ih =>
      exact monitor_uart_queue_char_wf fuel s1 ch s2 evs ih hq
    | pull s1 hr1 ih => exact monitor_uart_tx_char_wf s1 ih
  obtain ⟨h1, h2, h3⟩ := hwf
  refine ⟨⟨h1, h2, h3⟩, ?_, ?_, ?_, ?_, ?_, ?_⟩
  · constructor
    · exact RingBuf.contents_nil_of_empty s
    · intro hc
      refine (empty_iff_count s ⟨h1, h2, h3⟩).mpr ?_
      rw [← RingBuf.contents_length, hc]
      rfl
  · rw [inc_and_wrap_eq_mod]
  · unfold RingBuf.count
    omega
  · have := RingBuf.count_lt s
    omega
  · intro hlt
    rw [inc_and_wrap_eq_mod]
    unfold RingBuf.count at hlt
    omega
  · unfold RingBuf.count
    omega

/-- Witness for C3 at the initial state. -/
theorem tx_ringbuf_invariants_witness :
    RingBuf.init.wf ∧ RingBuf.init.count ≤ 63 :=
  ⟨(tx_ringbuf_invariants RingBuf.init Reachable.init).1,
   (tx_ringbuf_invariants RingBuf.init Reachable.init).2.2.2.2.1⟩

/-- Claim C4: `monitor_uart_tx_char` returns the `-1` sentinel iff
`head == tail`, leaving the state unchanged in that case; otherwise it
returns the byte stored at `tail` and advances `tail` by exactly one modulo
64 via the bitmask, leaving `head` and the stored bytes unchanged. -/
theorem monitor_uart_tx_char_pull_spec (s : RingBuf) :
    ((monitor_uart_tx_char s).1 = -1 ↔ s.head = s.tail)
    ∧ (s.head = s.tail → (monitor_uart_tx_char s).2 = s)
    ∧ (s.head ≠ s.tail →
        (monitor_uart_tx_char s).1 = (s.buf.getD s.tail 0 : Int)
          ∧ (monitor_uart_tx_char s).2
              = { s with tail := (s.tail + 1) % 64 }) := by
  by_cases h : s.head = s.tail
  · simp [monitor_uart_tx_char, h]
  · have hv : monitor_uart_tx_char s =
        ((s.buf.getD s.tail 0 : Int), { s with tail := (s.tail + 1) % 64 }) := by
      unfold monitor_uart_tx_char
      rw [if_neg h, inc_and_wrap_eq_mod]
    rw [hv]
    refine ⟨?_, fun hc => absurd hc h, fun _ => ⟨rfl, rfl⟩⟩
    constructor
    · intro hc
      exfalso
      omega
    · intro hc
      exact absurd hc h

/-- Witness for C4 at the initial (empty) state. -/
theorem monitor_uart_tx_char_pull_spec_witness :
    (monitor_uart_tx_char RingBuf.init).1 = -1 ↔
      RingBuf.init.head = RingBuf.init.tail :=
  (monitor_uart_tx_char_pull_spec RingBuf.init).1

/-- Claim C5: with no timestamp override, a failed wall-clock read or one
before 1 Jan 2016 00:00:00 UTC makes `ts32` derive from the monotonic
uptime counter, otherwise from wall-clock microseconds since the epoch; in
all cases the stored value is the chosen microsecond value divided by 100,
truncated, reduced to 32 bits and serialized little-endian at the end of
the header. -/
theorem encode_monitor_hdr_timestamp_fallback (env : TimeEnv)
    (opcode L : Nat) :
    (env.gettimeofday = none →
      (encode_monitor_hdr env (-1) opcode L).ts32
        = ((env.uptime_usec / 100) % 4294967296).toNat)
    ∧ (∀ sec usec : Int, env.gettimeofday = some (sec, usec) →
        sec < UTC01_01_2016 →
        (encode_monitor_hdr env (-1) opcode L).ts32
          = ((env.uptime_usec / 100) % 4294967296).toNat)
    ∧ (∀ sec usec : Int, env.gettimeofday = some (sec, usec) →
        UTC01_01_2016 ≤ sec →
        (encode_monitor_hdr env (-1) opcode L).ts32
          = (((sec * 1000000 + usec) / 100) % 4294967296).toNat)
    ∧ (serialize_monitor_hdr (encode_monitor_hdr env (-1) opcode L)).drop 8
        = le32 (encode_monitor_hdr env (-1) opcode L).ts32 := by
  refine ⟨?_, ?_, ?_, ?_⟩
  · intro h
    unfold encode_monitor_hdr
    rw [h]
    norm_num
  · intro sec usec h hlt
    unfold encode_monitor_hdr
    rw [h]
    dsimp only
    rw [if_pos (by norm_num), if_pos hlt]
  · intro sec usec h hge
    unfold encode_monitor_hdr
    rw [h]
    dsimp only
    rw [if_pos (by norm_num), if_neg (not_lt.mpr hge)]
  · simp [serialize_monitor_hdr, le16, le32]

/-- Witness for C5 with a failed wall-clock read. -/
theorem encode_monitor_hdr_timestamp_fallback_witness :
    (encode_monitor_hdr ⟨none, 12345⟩ (-1) 7 3).ts32
      = (((12345 : Int) / 100) % 4294967296).toNat :=
  (encode_monitor_hdr_timestamp_fallback ⟨none, 12345⟩ 7 3).1 rfl

/-- Claim C6: `ble_monitor_send_om` sums all fragment lengths in list order
before encoding the header, so (when the total fits the 16-bit budget) the
header declares the full total up front; it then pushes the header bytes
followed by every fragment's bytes in list order, all inside one
acquisition of the session lock. -/
theorem ble_monitor_send_om_orders (fuel : Nat) (env : TimeEnv)
    (s : RingBuf) (opcode : Nat) (oms : List (List Nat)) (hfuel : 2 ≤ fuel)
    (hwf : s.wf) (hb : ∀ om ∈ oms, ∀ b ∈ om, b < 256)
    (hS : 4 + 5 + (oms.map List.length).sum < 65536) :
    ∃ s2 mid,
      ble_monitor_send_om fuel env s opcode oms
          = some (s2, Ev.lockPend :: mid ++ [Ev.lockRelease])
        ∧ (∀ e ∈ mid, e ≠ Ev.lockPend ∧ e ≠ Ev.lockRelease)
        ∧ writesOf mid
            = serialize_monitor_hdr
                (encode_monitor_hdr env (-1) opcode ((oms.map List.length).sum))
              ++ oms.flatten
        ∧ (encode_monitor_hdr env (-1) opcode
              ((oms.map List.length).sum)).data_len
            = 4 + 5 + (oms.map List.length).sum := by
  obtain ⟨s2, mid, hrun, hwf2, hwr, hev⟩ :=
    ble_monitor_send_om_run fuel env s opcode oms hfuel hwf
  have hlen : om_total_len oms = (oms.map List.length).sum := by
    rw [om_total_len_eq]
    omega
  refine ⟨s2, mid, hrun, ?_, ?_, ?_⟩
  · intro e he
    rcases hev e he with rfl | ⟨b, rfl⟩
    · exact ⟨by simp, by simp⟩
    · exact ⟨by simp, by simp⟩
  · rw [hwr, hlen, map_mod_256_eq]
    intro b hb2
    obtain ⟨om, hom, hbm⟩ := List.mem_flatten.mp hb2
    exact hb om hom b hbm
  · unfold encode_monitor_hdr
    dsimp only
    omega

/-- Witness for C6 with two fragments from the initial state. -/
theorem ble_monitor_send_om_orders_witness :
    ∃ s2 mid,
      ble_monitor_send_om 2 ⟨none, 0⟩ RingBuf.init 1 [[1], [2, 3]]
          = some (s2, Ev.lockPend :: mid ++ [Ev.lockRelease])
        ∧ (∀ e ∈ mid, e ≠ Ev.lockPend ∧ e ≠ Ev.lockRelease)
        ∧ writesOf mid
            = serialize_monitor_hdr
                (encode_monitor_hdr ⟨none, 0⟩ (-1) 1
                  (([[1], [2, 3]].map List.length).sum))
              ++ [[1], [2, 3]].flatten
        ∧ (encode_monitor_hdr ⟨none, 0⟩ (-1) 1
              (([[1], [2, 3]].map List.length).sum)).data_len
            = 4 + 5 + ([[1], [2, 3]].map List.length).sum :=
  ble_monitor_send_om_orders 2 ⟨none, 0⟩ RingBuf.init 1 [[1], [2, 3]]
    (by norm_num) (by decide) (by decide) (by decide)

/-- Claim C7 counterexample: a call to `monitor_uart_queue_char` on a
non-full buffer completes without issuing any `uart_start_tx` kick, so not
every push issues the kick. -/
theorem monitor_uart_queue_char_no_kick_cex :
    (monitor_uart_queue_char 1 RingBuf.init 65).map (fun p => p.2)
        = some [Ev.write 65]
      ∧ Ev.kick ∉ [Ev.write 65] :=
  ⟨by decide, by decide⟩

/-- Claim C7 as amended: `monitor_uart_queue_char` issues the
`uart_start_tx` kick exactly when it finds the buffer full on entry (once
per wait iteration), and `monitor_write` — through which every record is
pushed — always ends its trace with one closing kick, so draining makes
progress even if the transmitter had gone idle between records. -/
theorem uart_start_tx_kick_policy :
    (∀ (fuel : Nat) (s : RingBuf) (ch : Nat) (s2 : RingBuf) (evs : List Ev),
        monitor_uart_queue_char fuel s ch = some (s2, evs) →
        (Ev.kick ∈ evs ↔ inc_and_wrap s.head 64 = s.tail))
    ∧ (∀ (fuel : Nat) (s : RingBuf) (bytes : List Nat) (s2 : RingBuf)
          (evs : List Ev),
        monitor_write fuel s bytes = some (s2, evs) →
        evs.getLast? = some Ev.kick) := by
  constructor
  · intro fuel s ch s2 evs h
    exact (monitor_uart_queue_char_events fuel s ch s2 evs h).2.2
  · intro fuel s bytes s2 evs h
    exact (monitor_write_events fuel bytes s s2 evs h).2.2

/-- Witness for the amended C7 at a concrete non-full push. -/
theorem uart_start_tx_kick_policy_witness :
    Ev.kick ∈ [Ev.write 65] ↔
      inc_and_wrap RingBuf.init.head 64 = RingBuf.init.tail :=
  uart_start_tx_kick_policy.1 1 RingBuf.init 65
    ⟨(List.replicate 64 0).set 0 65, 1, 0⟩ [Ev.write 65] (by decide)

/-- Claim C8 counterexample: the scenario `send(opcode 2, ten 0xAA bytes)`
puts on the wire a 12-byte header (not a 15-byte one) followed by the
payload. -/
theorem ble_monitor_send_header_length_cex :
    (ble_monitor_send 2 ⟨none, 0⟩ RingBuf.init 2 (List.replicate 10 170)).map
        (fun p => writesOf p.2)
      = some ([19, 0, 5, 2, 0, 0, 0, 8, 0, 0, 0, 0] ++ List.replicate 10 170)
    ∧ ([19, 0, 5, 2, 0, 0, 0, 8, 0, 0, 0, 0] : List Nat).length = 12
    ∧ (12 : Nat) ≠ 15 :=
  ⟨by decide, by decide, by decide⟩

/-- Claim C8 as amended: `send(opcode 0x0002, ten 0xAA bytes)` from the
empty 64-byte buffer emits exactly the 12-byte serialized header with
`data_len = 19 = 4 + 5 + 10` immediately followed by the ten payload bytes,
nothing interleaved; a second `send` serialized by the session lock
contributes its whole record strictly afterwards. -/
theorem ble_monitor_send_scenario :
    (ble_monitor_send 2 ⟨none, 0⟩ RingBuf.init 2 (List.replicate 10 170)).map
        (fun p => writesOf p.2)
      = some (serialize_monitor_hdr (encode_monitor_hdr ⟨none, 0⟩ (-1) 2 10)
          ++ List.replicate 10 170)
    ∧ (serialize_monitor_hdr (encode_monitor_hdr ⟨none, 0⟩ (-1) 2 10)).length
        = 12
    ∧ (encode_monitor_hdr ⟨none, 0⟩ (-1) 2 10).data_len = 19
    ∧ ((ble_monitor_send 2 ⟨none, 0⟩ RingBuf.init 2
          (List.replicate 10 170)).bind
        (fun p => (ble_monitor_send 2 ⟨none, 0⟩ p.1 7 [1, 2, 3]).map
          (fun q => writesOf (p.2 ++ q.2))))
      = some ((serialize_monitor_hdr (encode_monitor_hdr ⟨none, 0⟩ (-1) 2 10)
            ++ List.replicate 10 170)
          ++ (serialize_monitor_hdr (encode_monitor_hdr ⟨none, 0⟩ (-1) 7 3)
            ++ [1, 2, 3])) :=
  ⟨by decide, by decide, by decide, by decide⟩

/-- Claim C9: for a name at least as long as the name field,
`ble_monitor_new_index` transmits via the session, under the reserved
new-index opcode, a record whose payload is the type byte 0 (primary
controller), the bus byte, the 6 address bytes, and a name field holding
exactly the first `w - 1` name bytes followed by a terminating null. -/
theorem ble_monitor_new_index_record (w fuel : Nat) (env : TimeEnv)
    (s : RingBuf) (bus : Nat) (addr name : List Nat)
    (hfuel : 2 ≤ fuel) (hwf : s.wf) (hw1 : 1 ≤ w) (hbus : bus < 256)
    (haddr : addr.length = 6) (haddrb : ∀ b ∈ addr, b < 256)
    (hnameb : ∀ b ∈ name, b < 256) (hname : w ≤ name.length) :
    ∃ s2 mid,
      ble_monitor_new_index w fuel env s bus addr name
          = some (s2, Ev.lockPend :: mid ++ [Ev.lockRelease])
        ∧ writesOf mid
            = serialize_monitor_hdr
                (encode_monitor_hdr env (-1) BLE_MONITOR_OPCODE_NEW_INDEX
                  ((8 + w) % 65536))
              ++ ([0, bus] ++ addr ++ (name.take (w - 1) ++ [0]))
        ∧ (name.take (w - 1)).length = w - 1 := by
  have hstr : strncpyBytes name (w - 1) = name.take (w - 1) := by
    unfold strncpyBytes
    rw [show w - 1 - name.length = 0 from by omega]
    simp
  have hpkt : ble_monitor_new_index_pkt w bus addr name
      = [0, bus] ++ addr ++ (name.take (w - 1) ++ [0]) := by
    unfold ble_monitor_new_index_pkt
    rw [hstr, List.take_of_length_le (by omega), Nat.mod_eq_of_lt hbus]
  have htklen : (name.take (w - 1)).length = w - 1 :=
    List.length_take_of_le (by omega)
  have hpktlen : (ble_monitor_new_index_pkt w bus addr name).length
      = 8 + w := by
    rw [hpkt]
    simp only [List.length_append, List.length_cons, List.length_nil,
      haddr, htklen]
    try omega
  have hpktb : ∀ b ∈ ble_monitor_new_index_pkt w bus addr name, b < 256 := by
    rw [hpkt]
    intro b hb
    rcases List.mem_append.mp hb with h1 | h2
    · rcases List.mem_append.mp h1 with h3 | h4
      · rcases List.mem_cons.mp h3 with rfl | h3
        · omega
        · rcases List.mem_cons.mp h3 with rfl | h3
          · exact hbus
          · cases h3
      · exact haddrb b h4
    · rcases List.mem_append.mp h2 with h5 | h6
      · exact hnameb b (List.take_subset _ _ h5)
      · rcases List.mem_cons.mp h6 with rfl | h6
        · omega
        · cases h6
  obtain ⟨s2, mid, hrun, hwf2, hwr, -⟩ := ble_monitor_send_run fuel env s
    BLE_MONITOR_OPCODE_NEW_INDEX (ble_monitor_new_index_pkt w bus addr name)
    hfuel hwf
  refine ⟨s2, mid, hrun, ?_, htklen⟩
  rw [hwr, map_mod_256_eq _ hpktb, hpktlen, hpkt]

/-- Witness for C9: an 8-byte name field, a 10-byte name. -/
theorem ble_monitor_new_index_record_witness :
    ∃ s2 mid,
      ble_monitor_new_index 8 2 ⟨none, 0⟩ RingBuf.init 5 [1, 2, 3, 4, 5, 6]
          [72, 69, 76, 76, 79, 87, 79, 82, 76, 68]
          = some (s2, Ev.lockPend :: mid ++ [Ev.lockRelease])
        ∧ writesOf mid
            = serialize_monitor_hdr
                (encode_monitor_hdr ⟨none, 0⟩ (-1) BLE_MONITOR_OPCODE_NEW_INDEX
                  ((8 + 8) % 65536))
              ++ ([0, 5] ++ [1, 2, 3, 4, 5, 6]
                ++ ([72, 69, 76, 76, 79, 87, 79, 82, 76, 68].take (8 - 1)
                  ++ [0]))
        ∧ ([72, 69, 76, 76, 79, 87, 79, 82, 76, 68].take (8 - 1)).length
            = 8 - 1 :=
  ble_monitor_new_index_record 8 2 ⟨none, 0⟩ RingBuf.init 5 [1, 2, 3, 4, 5, 6]
    [72, 69, 76, 76, 79, 87, 79, 82, 76, 68] (by norm_num) (by decide)
    (by norm_num) (by norm_num) (by decide) (by decide) (by decide)
    (by decide)

/-- Claim C10: `ble_monitor_send_om` accumulates the fragment lengths in a
16-bit counter, so the length handed to the header encoder is the true
total `S` reduced mod 2^16 while all `S` payload bytes are pushed; for
`S ≥ 2^16` the encoded `data_len` therefore understates the payload
actually sent. -/
theorem ble_monitor_send_om_length_wrap (fuel : Nat) (env : TimeEnv)
    (s : RingBuf) (opcode : Nat) (oms : List (List Nat))
    (hfuel : 2 ≤ fuel) (hwf : s.wf) :
    om_total_len oms = (oms.map List.length).sum % 65536
    ∧ (ble_monitor_send_om fuel env s opcode oms).map
          (fun p => (writesOf p.2).length)
        = some (12 + (oms.map List.length).sum)
    ∧ (encode_monitor_hdr env (-1) opcode (om_total_len oms)).data_len
        = (4 + 5 + (oms.map List.length).sum % 65536) % 65536
    ∧ (65536 ≤ (oms.map List.length).sum →
        (oms.map List.length).sum % 65536 < (oms.map List.length).sum) := by
  refine ⟨om_total_len_eq oms, ?_, ?_, ?_⟩
  · obtain ⟨s2, mid, hrun, -, hwr, -⟩ :=
      ble_monitor_send_om_run fuel env s opcode oms hfuel hwf
    rw [hrun, Option.map_some']
    congr 1
    dsimp only
    rw [writesOf_lockRelease, writesOf_lockPend_cons, hwr,
      List.length_append, serialize_monitor_hdr_length, List.length_map,
      List.length_flatten]
  · rw [om_total_len_eq]
    unfold encode_monitor_hdr
    dsimp only
  · intro h
    omega

/-- Witness for C10 with two small fragments. -/
theorem ble_monitor_send_om_length_wrap_witness :
    om_total_len [[4], [5]] = ([[4], [5]].map List.length).sum % 65536
    ∧ (ble_monitor_send_om 2 ⟨none, 0⟩ RingBuf.init 3 [[4], [5]]).map
          (fun p => (writesOf p.2).length)
        = some (12 + ([[4], [5]].map List.length).sum)
    ∧ (encode_monitor_hdr ⟨none, 0⟩ (-1) 3 (om_total_len [[4], [5]])).data_len
        = (4 + 5 + ([[4], [5]].map List.length).sum % 65536) % 65536
    ∧ (65536 ≤ ([[4], [5]].map List.length).sum →
        ([[4], [5]].map List.length).sum % 65536
          < ([[4], [5]].map List.length).sum) :=
  ble_monitor_send_om_length_wrap 2 ⟨none, 0⟩ RingBuf.init 3 [[4], [5]]
    (by norm_num) (by decide)

end BleMonitor
